import Mathlib

/-!
Verification of the content-index and request-resolution subsystem of the
`site` Markdown HTTP server (`src/main.rs`).

The development is a shallow embedding of the Rust source:

* paths are modelled at the level of their `/`-separated components, built
  from the raw character lists of Lean `String`s (Rust operates on the raw
  bytes of `OsStr`; for valid UTF-8 the byte `b'/'`, `b'.'`, `b'\n'`
  boundaries coincide with the character boundaries used here);
* the directory tree handed to `State::load` is an explicit inductive tree
  (`FsTree`), so the `walk` traversal of `main.rs` becomes structural
  recursion; reads from a stable, readable tree always succeed;
* external collaborators (the `pulldown_cmark` Markdown tokenizer, the
  `toml` front-matter parser, the `syntect` highlighter, the `rinja`
  templates, the embedded asset dirs, and the `git check-ignore`
  subprocess) are carried as an explicit record of oracle functions
  (`Externals`): the code under verification only routes their outputs;
* fallible operations return `Except String`.
-/

/-! ### Character-list splitting and joining

Rust's `Path` component handling and `str::lines`/`str::split` are modelled
by splitting a character list at a separator character. -/

/-- Split a character list at every occurrence of `c` (the separator itself
is dropped); mirrors the field decomposition Rust performs on the bytes of a
path or of subprocess output. The result is always nonempty. -/
def splitOnChar (c : Char) : List Char → List (List Char)
  | [] => [[]]
  | x :: xs =>
    let r := splitOnChar c xs
    if x = c then [] :: r
    else
      match r with
      | [] => [[x]]
      | y :: ys => (x :: y) :: ys

/-- Join character lists with the separator `c`; inverse of `splitOnChar`. -/
def joinChar (c : Char) : List (List Char) → List Char
  | [] => []
  | [p] => p
  | p :: rest => p ++ c :: joinChar c rest

theorem splitOnChar_ne_nil (c : Char) (l : List Char) : splitOnChar c l ≠ [] := by
  induction l with
  | nil => simp [splitOnChar]
  | cons x xs ih =>
    simp only [splitOnChar]
    split
    · simp
    · match h : splitOnChar c xs with
      | [] => exact absurd h ih
      | y :: ys => simp [h]

theorem splitOnChar_of_not_mem {c : Char} {l : List Char} (h : c ∉ l) :
    splitOnChar c l = [l] := by
  induction l with
  | nil => rfl
  | cons x xs ih =>
    have hx : ¬ x = c := fun hx => h (by simp [hx])
    have h2 : c ∉ xs := fun hm => h (List.mem_cons_of_mem _ hm)
    simp only [splitOnChar, if_neg hx, ih h2]

theorem splitOnChar_append_cons {c : Char} {xs : List Char} (ys : List Char)
    (hxs : c ∉ xs) :
    splitOnChar c (xs ++ c :: ys) = xs :: splitOnChar c ys := by
  induction xs with
  | nil => simp [splitOnChar]
  | cons x xs ih =>
    have hx : ¬ x = c := fun hx => hxs (by simp [hx])
    have h2 : c ∉ xs := fun hm => hxs (List.mem_cons_of_mem _ hm)
    simp only [List.cons_append, splitOnChar, List.append_eq, if_neg hx, ih h2]

theorem splitOnChar_joinChar {c : Char} :
    ∀ {parts : List (List Char)}, parts ≠ [] → (∀ p ∈ parts, c ∉ p) →
      splitOnChar c (joinChar c parts) = parts
  | [], h, _ => absurd rfl h
  | [p], _, hmem => by
    simp only [joinChar]
    exact splitOnChar_of_not_mem (hmem p (by simp))
  | p :: q :: rest, _, hmem => by
    have hq : splitOnChar c (joinChar c (q :: rest)) = q :: rest :=
      splitOnChar_joinChar (by simp) (fun x hx => hmem x (List.mem_cons_of_mem p hx))
    show splitOnChar c (p ++ c :: joinChar c (q :: rest)) = p :: q :: rest
    rw [splitOnChar_append_cons _ (hmem p (by simp)), hq]

theorem joinChar_head? {c : Char} (p : List Char) (rest : List (List Char)) :
    (joinChar c (p :: rest)).head? = if rest = [] then p.head? else (p ++ [c]).head? := by
  cases rest with
  | nil => simp [joinChar]
  | cons q r =>
    simp only [joinChar, reduceCtorEq, if_neg]
    cases p <;> simp

/-! ### Strings as segment lists -/

/-- The `/`-separated segments of a string (no normalization). -/
def strSegs (s : String) : List String :=
  (splitOnChar '/' s.data).map (fun l => { data := l })

/-- Join segments with `/`; models how the scanner's root-relative
`PathBuf` prints via `to_str` (POSIX separator). -/
def joinSegs (segs : List String) : String :=
  { data := joinChar '/' (segs.map String.data) }

/-- Model of `name.as_encoded_bytes().starts_with(b".")`: the first byte of
a valid UTF-8 name is `b'.'` exactly when its first character is `'.'`. -/
def hiddenName (s : String) : Bool :=
  match s.data with
  | c :: _ => c = '.'
  | [] => false

/-- Model of Rust `Path::extension` applied to a file name: the portion
after the last `.`, except that there is none when the name contains no `.`
or when the only `.` is the leading character of the name. -/
def fileExtension (name : String) : Option String :=
  match splitOnChar '.' name.data with
  | [] => none
  | [_] => none
  | [[], _] => none
  | parts => parts.getLast?.map (fun l => { data := l })

/-- Model of the byte slice `&path[1..]` (the request path always starts
with `/`). -/
def strTail (s : String) : String := { data := s.data.drop 1 }

/-- Model of Rust `str::trim`: strip leading and trailing whitespace. -/
def rustTrim (s : String) : String :=
  { data := ((s.data.dropWhile Char.isWhitespace).reverse.dropWhile Char.isWhitespace).reverse }

/-- Model of Rust `str::starts_with` on strings. -/
def strStartsWith (s pre : String) : Bool := pre.data.isPrefixOf s.data

/-- Model of Rust `str::ends_with` on strings. -/
def strEndsWith (s suf : String) : Bool := suf.data.isSuffixOf s.data

theorem strSegs_of_not_mem {s : String} (h : '/' ∉ s.data) : strSegs s = [s] := by
  simp [strSegs, splitOnChar_of_not_mem h]

theorem strSegs_joinSegs {segs : List String} (hne : segs ≠ [])
    (h : ∀ s ∈ segs, '/' ∉ s.data) : strSegs (joinSegs segs) = segs := by
  unfold strSegs joinSegs
  rw [splitOnChar_joinChar (by simpa using hne)
    (by intro p hp; rcases List.mem_map.mp hp with ⟨s, hs, rfl⟩; exact h s hs)]
  rw [List.map_map]
  exact List.map_id'' (fun s => rfl) segs

/-! ### Data model (`main.rs` lines 84–95, 457–474)

`chrono::NaiveDate` is totally ordered chronologically; it is embedded as an
integer key (for valid calendar dates the key `y*10000 + m*100 + d` is
order- and equality-faithful), which is all the program ever uses of it. -/

/-- Calendar date, embedded by its chronological key. -/
abbrev Date := Int

/-- `Meta` struct: the parsed front-matter block. -/
structure Meta where
  title : String
  date : Date
  lang : Option String
  desc : Option String
deriving DecidableEq

/-- The `Meta::default` sentinel: title `"UNTITLED!"`, date 2024-01-01. -/
def Meta.sentinel : Meta :=
  { title := "UNTITLED!", date := 20240101, lang := none, desc := none }

/-- `IndexEntry` struct (the `section` field is called `sect`, since
`section` is a Lean keyword). -/
structure IndexEntry where
  meta : Meta
  sect : String
  path : String
deriving DecidableEq

/-- `State` struct: the immutable snapshot. -/
structure Snapshot where
  sections : List String
  index : List IndexEntry
deriving DecidableEq

/-! ### Markdown rendering pipeline (`markdown_to_document`, lines 476–577)

The `pulldown_cmark` tokenizer is an external collaborator: a document's
contents are mapped to its event stream by the `parseMarkdown` oracle.  The
embedded event type keeps exactly the event shapes the `filter_map` in the
source distinguishes. -/

/-- Markdown events, as distinguished by the `filter_map` in
`markdown_to_document`: a fenced-code-block start with its fence-language
token, a text run, a code-block end, injected HTML, and all other events
(which pass through untouched, abstracted by an opaque payload). -/
inductive MdEvent where
  | startFence (lang : String)
  | text (s : String)
  | endCodeBlock
  | html (s : String)
  | other (payload : String)
deriving DecidableEq

/-- The transient `ParseState` enum local to one render call. -/
inductive ParseState where
  | normal
  | meta
  | highlight
deriving DecidableEq

/-- The mutable locals of the `filter_map` closure: `state`, `code`,
`meta`, and the currently resolved syntax definition (`syntax` in the
source; syntax definitions are abstracted by an identifier). -/
structure MdAcc where
  state : ParseState
  code : String
  meta : Option Meta
  synId : String
deriving DecidableEq

/-- Exit status and captured output of one `git check-ignore` run
(`std::process::Output`); `code = none` models termination by signal. -/
structure GitOutcome where
  code : Option Int
  stdout : String
  stderr : String
deriving DecidableEq

/-- The external collaborators of the subsystem, as oracle functions:
* `parseMarkdown` — the `pulldown_cmark` tokenizer (contents ↦ events);
* `parseMeta` — `toml::de::from_str::<Meta>` (`none` = parse failure);
* `findSynByToken`/`plainTextSyn` — `syntect` syntax lookup and the
  always-available plain-text syntax;
* `highlightHtml code syn` — `syntect::html::highlighted_html_for_string`
  (`none` = highlighting failure);
* `pushHtml` — `pulldown_cmark::html::push_html` on the filtered events;
* `renderDocument sections meta body` — the rinja `DocumentTemplate`;
* `assets`/`styles` — the embedded `ASSETS`/`STYLES` directories;
* `git args` — running `git check-ignore -- <args>` in the content root. -/
structure Externals where
  parseMarkdown : String → List MdEvent
  parseMeta : String → Option Meta
  findSynByToken : String → Option String
  plainTextSyn : String
  highlightHtml : String → String → Option String
  pushHtml : List MdEvent → String
  renderDocument : List String → Meta → String → String
  assets : String → Option String
  styles : String → Option String
  git : List String → GitOutcome

/-- One step of the `filter_map` closure in `markdown_to_document`:
updates the captured locals and optionally emits an event. -/
def mdStep (ext : Externals) (acc : MdAcc) (ev : MdEvent) : MdAcc × Option MdEvent :=
  match ev with
  | .startFence lang =>
    let lang := rustTrim lang
    if lang = "meta" then ({ acc with state := .meta }, none)
    else
      ({ acc with state := .highlight,
                  synId := (ext.findSynByToken lang).getD ext.plainTextSyn }, none)
  | .text s =>
    match acc.state with
    | .normal => (acc, some (.text s))
    | .meta =>
      ({ acc with meta := match ext.parseMeta s with
                          | some m => some m
                          | none => acc.meta }, none)
    | .highlight => ({ acc with code := acc.code ++ s }, none)
  | .endCodeBlock =>
    match acc.state with
    | .normal => (acc, some .endCodeBlock)
    | .meta => ({ acc with state := .normal }, none)
    | .highlight =>
      let h := (ext.highlightHtml acc.code acc.synId).getD acc.code
      ({ acc with code := "", state := .normal }, some (.html h))
  | .html s => (acc, some (.html s))
  | .other p => (acc, some (.other p))

/-- Run the `filter_map` over the whole event stream, returning the final
locals and the emitted events (the lazy iterator is fully consumed by
`push_html` before `meta` is read, so the eager fold is equivalent). -/
def mdRun (ext : Externals) (acc : MdAcc) : List MdEvent → MdAcc × List MdEvent
  | [] => (acc, [])
  | ev :: rest =>
    let s := mdStep ext acc ev
    let r := mdRun ext s.1 rest
    (r.1, match s.2 with
          | some o => o :: r.2
          | none => r.2)

/-- Initial locals: `ParseState::default()`, empty accumulator, no
metadata, plain-text syntax. -/
def mdInit (ext : Externals) : MdAcc :=
  { state := .normal, code := "", meta := none, synId := ext.plainTextSyn }

/-- `markdown_to_document(header_sections, contents)`: returns the rendered
HTML document and the metadata found (if any). -/
def markdown_to_document (ext : Externals) (headerSections : List String)
    (contents : String) : String × Option Meta :=
  let r := mdRun ext (mdInit ext) (ext.parseMarkdown contents)
  let htmlOutput := ext.pushHtml r.2
  (ext.renderDocument headerSections (r.1.meta.getD Meta.sentinel) htmlOutput, r.1.meta)

/-! ### Ignore filter (`filter_ignored`, lines 601–629) -/

/-- Model of Rust `str::lines` (LF only): no lines for the empty string,
otherwise split at `\n` after dropping one trailing `\n`. -/
def rustLines (s : String) : List String :=
  if s.data = [] then []
  else
    let d := if s.data.getLast? = some '\n' then s.data.dropLast else s.data
    (splitOnChar '\n' d).map (fun l => { data := l })

/-- The error message built at lines 621–623 (verbatim, typo included). -/
def gitFailMsg (stdout stderr : String) : String :=
  "'Git check-ignore' exited uncuccessfully with output:\nstdout:" ++ stdout
    ++ "\nstderr:\n" ++ stderr

/-- `filter_ignored`, given the outcome of the `git check-ignore`
subprocess run (the spawn itself is the `Externals.git` oracle): no exit
code (signal) is an error, exit code 128 is an error carrying the captured
output, and every other exit code yields one ignored path per trimmed
stdout line. -/
def filter_ignored (o : GitOutcome) : Except String (List String) :=
  match o.code with
  | none => .error "git didn't exit with a code"
  | some code =>
    if code = 128 then .error (gitFailMsg o.stdout o.stderr)
    else .ok ((rustLines o.stdout).map rustTrim)

/-! ### Directory scan (`State::load` and `walk`, lines 97–227)

The content tree is an explicit finite tree; `read_dir` order is the order
of the `entries` list. Real directory entries have nonempty names that
contain no separator — `FsTree.Wf` records exactly that. -/

mutual
/-- A directory tree rooted at the content path. A `file` carries its
contents (for `.md`/`.markdown` files, the string handed to the renderer). -/
inductive FsTree where
  | file (contents : String)
  | dir (entries : FsEntries)
/-- The entries of one directory, in `read_dir` order. -/
inductive FsEntries where
  | nil
  | cons (name : String) (t : FsTree) (rest : FsEntries)
end

mutual
/-- Well-formedness of a tree as produced by a real filesystem walk: every
entry name is nonempty and contains no `/` (and `read_dir` never yields the
`.`/`..` pseudo-entries). -/
inductive FsTree.Wf : FsTree → Prop
  | file (c : String) : FsTree.Wf (.file c)
  | dir (es : FsEntries) (h : FsEntries.Wf es) : FsTree.Wf (.dir es)
/-- Well-formedness of a directory entry list. -/
inductive FsEntries.Wf : FsEntries → Prop
  | nil : FsEntries.Wf .nil
  | cons (n : String) (t : FsTree) (rest : FsEntries)
      (hn : n ≠ "") (hs : '/' ∉ n.data) (ht : FsTree.Wf t)
      (hrest : FsEntries.Wf rest) : FsEntries.Wf (.cons n t rest)
end

/-- The tree is a directory (the content-root contract of the spec). -/
def FsTree.IsDir : FsTree → Prop
  | .file _ => False
  | .dir _ => True

/-- Build an entry list from a `List` literal (read_dir order). -/
def FsEntries.ofList : List (String × FsTree) → FsEntries
  | [] => .nil
  | (n, t) :: rest => .cons n t (FsEntries.ofList rest)

/-- The mutable accumulators captured by the `walk` callback in
`State::load`: the candidate `sections` and the growing `index`. -/
structure ScanAcc where
  sections : List String
  index : List IndexEntry
deriving DecidableEq

/-- First half of the `walk` callback of `State::load` (lines 105–127):
`if file_name == ".section.toml" && !is_dir { sections.push(first component) }`.
`name` is `path.file_name()`; `rel` is `path.strip_prefix(content_path)` as
a segment list (empty exactly when the content root is itself a file). -/
def visitSections (isDir : Bool) (name : String) (rel : List String)
    (acc : ScanAcc) : ScanAcc :=
  if name = ".section.toml" ∧ isDir = false then
    match rel.head? with
    | some sectionName => { acc with sections := acc.sections ++ [sectionName] }
    | none => acc
  else acc

/-- Second half of the `walk` callback (lines 129–171): hidden-name
pruning (`return Ok(false)`), the directory shortcut (`return Ok(true)`),
and the Markdown branch that renders the file and appends an `IndexEntry`
when metadata was produced. -/
def visitIndex (ext : Externals) (isDir : Bool) (name : String)
    (rel : List String) (contents : String) (acc : ScanAcc) : ScanAcc × Bool :=
  if hiddenName name then (acc, false)
  else if isDir then (acc, true)
  else
    match fileExtension name with
    | some e =>
      if e = "md" ∨ e = "markdown" then
        match (markdown_to_document ext acc.sections contents).2 with
        | some m =>
          let pathStr := joinSegs rel
          let sect0 := rel.head?.getD ""
          let sect := if sect0 = pathStr then "" else sect0
          ({ acc with index := acc.index ++ [{ meta := m, sect := sect, path := pathStr }] },
           true)
        | none => (acc, true)
      else (acc, true)
    | none => (acc, true)

/-- The full `walk` callback of `State::load` (lines 104–172). Returns the
updated accumulators and the `Ok(..)` boolean (descend?). -/
def visit (ext : Externals) (isDir : Bool) (name : String) (rel : List String)
    (contents : String) (acc : ScanAcc) : ScanAcc × Bool :=
  visitIndex ext isDir name rel contents (visitSections isDir name rel acc)

mutual
/-- `walk` arriving at one directory entry `name`/`t` below root-relative
path `rel`: a directory entry is visited before descending and descended
into only if the callback returned `true`; a file entry's return value is
ignored. -/
def scanTree (ext : Externals) (rel : List String) (name : String)
    (t : FsTree) (acc : ScanAcc) : ScanAcc :=
  match t with
  | .file c => (visit ext false name (rel ++ [name]) c acc).1
  | .dir sub =>
    let v := visit ext true name (rel ++ [name]) "" acc
    if v.2 then scanEntries ext (rel ++ [name]) sub v.1 else v.1
/-- Depth-first `walk` over the entries of a directory at root-relative
path `rel`, in `read_dir` order. -/
def scanEntries (ext : Externals) (rel : List String) (es : FsEntries)
    (acc : ScanAcc) : ScanAcc :=
  match es with
  | .nil => acc
  | .cons n t rest => scanEntries ext rel rest (scanTree ext rel n t acc)
end

/-- `walk(content_path, callback)`: iterate a directory root's entries; a
content root that is itself a file is visited once (`rootName` is the
root's own file name, consulted by the callback's name checks). -/
def scanRoot (ext : Externals) (rootName : String) : FsTree → ScanAcc
  | .dir es => scanEntries ext [] es { sections := [], index := [] }
  | .file c => (visit ext false rootName [] c { sections := [], index := [] }).1

/-- Lines 175–182: drop ignored sections (when git was found and the
candidate list is nonempty). -/
def gitRetainSections (ext : Externals) (sections : List String) :
    Except String (List String) :=
  if sections.isEmpty then .ok sections
  else
    match filter_ignored (ext.git sections) with
    | .error e => .error e
    | .ok ignored => .ok (sections.filter (fun s => !ignored.contains s))

/-- Lines 184–195: drop ignored index entries (when git was found and the
index is nonempty). -/
def gitRetainIndex (ext : Externals) (index : List IndexEntry) :
    Except String (List IndexEntry) :=
  if index.isEmpty then .ok index
  else
    match filter_ignored (ext.git (index.map IndexEntry.path)) with
    | .error e => .error e
    | .ok ignored => .ok (index.filter (fun i => !ignored.contains i.path))

/-- `State::load` up to (and including) the git filtering, before the root
section is appended and the lists are sorted: walk the tree, retain only
candidate sections that some index entry inhabits, then apply the ignore
filter when `git` was found on the search path (`foundGit`). -/
def loadFiltered (ext : Externals) (foundGit : Bool) (rootName : String)
    (tree : FsTree) : Except String (List String × List IndexEntry) :=
  let acc := scanRoot ext rootName tree
  let index0 := acc.index
  -- `sections.retain(|s| index.iter().any(|i| i.section == *s))`
  let sections0 := acc.sections.filter (fun s => index0.any (fun i => decide (i.sect = s)))
  if foundGit then
    match gitRetainSections ext sections0 with
    | .error e => .error e
    | .ok sections =>
      match gitRetainIndex ext index0 with
      | .error e => .error e
      | .ok index => .ok (sections, index)
  else .ok (sections0, index0)

/-- Lexicographic (≤) on character lists; Rust compares `String`s by their
UTF-8 bytes, and UTF-8 byte order coincides with code-point order. -/
def lexLeChar : List Char → List Char → Bool
  | [], _ => true
  | _ :: _, [] => false
  | a :: as, b :: bs => if a < b then true else if a = b then lexLeChar as bs else false

/-- Rust's `String` total order (`Vec::sort` on the sections). -/
def strLe (a b : String) : Prop := lexLeChar a.data b.data = true

instance : DecidableRel strLe := fun a b => inferInstanceAs (Decidable (_ = true))

theorem lexLeChar_total : ∀ as bs : List Char, lexLeChar as bs = true ∨ lexLeChar bs as = true
  | [], _ => Or.inl rfl
  | _ :: _, [] => Or.inr rfl
  | a :: as, b :: bs => by
    rcases lt_trichotomy a b with h | h | h
    · exact Or.inl (by simp [lexLeChar, h])
    · subst h
      rcases lexLeChar_total as bs with h2 | h2
      · exact Or.inl (by simp [lexLeChar, h2])
      · exact Or.inr (by simp [lexLeChar, h2])
    · exact Or.inr (by simp [lexLeChar, h])

theorem lexLeChar_trans :
    ∀ as bs cs : List Char, lexLeChar as bs = true → lexLeChar bs cs = true →
      lexLeChar as cs = true
  | [], _, _, _, _ => rfl
  | _ :: _, [], _, h1, _ => by simp [lexLeChar] at h1
  | _ :: _, _ :: _, [], _, h2 => by simp [lexLeChar] at h2
  | a :: as, b :: bs, c :: cs, h1, h2 => by
    simp only [lexLeChar] at h1 h2 ⊢
    by_cases hab : a < b
    · by_cases hbc : b < c
      · simp [lt_trans hab hbc]
      · simp only [if_pos hab, if_neg hbc] at h2 ⊢
        by_cases hbceq : b = c
        · simp [hbceq ▸ hab]
        · simp [if_neg hbceq] at h2
    · by_cases habeq : a = b
      · subst habeq
        by_cases hbc : a < c
        · simp [hbc]
        · by_cases hbceq : a = c
          · subst hbceq
            simp only [if_neg hbc, if_pos rfl] at h1 h2 ⊢
            exact lexLeChar_trans as bs cs h1 h2
          · simp [if_neg hbc, if_neg hbceq] at h2
      · simp [if_neg hab, if_neg habeq] at h1

instance : IsTotal String strLe := ⟨fun a b => lexLeChar_total a.data b.data⟩

instance : IsTrans String strLe := ⟨fun a b c => lexLeChar_trans a.data b.data c.data⟩

/-- The comparison `|r, l| l.meta.date.cmp(&r.meta.date)` of line 200, as
the relation "`r` may stay before `l`" (date descending). -/
def dateGe (r l : IndexEntry) : Prop := l.meta.date ≤ r.meta.date

instance : DecidableRel dateGe := fun r l => inferInstanceAs (Decidable (_ ≤ _))

instance : IsTotal IndexEntry dateGe := ⟨fun a b => le_total b.meta.date a.meta.date⟩

instance : IsTrans IndexEntry dateGe := ⟨fun _ _ _ hab hbc => le_trans hbc hab⟩

/-- Lines 198–200: append the root (empty-string) section, sort the
sections, and sort the index by date descending.  Rust's `sort`/`sort_by`
is a stable sort, and a stable sort by a total preorder has a unique
result, so the stable `List.insertionSort` is an exact model. -/
def finalize (si : List String × List IndexEntry) : Snapshot :=
  { sections := (si.1 ++ [""]).insertionSort strLe,
    index := si.2.insertionSort dateGe }

/-- `State::load` (lines 98–202). -/
def State.load (ext : Externals) (foundGit : Bool) (rootName : String)
    (tree : FsTree) : Except String Snapshot :=
  (loadFiltered ext foundGit rootName tree).map finalize

/-! ### Request router (`serve`, lines 288–446)

A request is modelled by whether a `Host` header is present, whether
`Url::parse` succeeds on the reconstructed URL, and the parsed `url.path()`.
The response is classified by which `respond`/`continue` the handler
reaches. -/

/-- One incoming request, as far as `serve` inspects it. -/
structure HttpRequest where
  hostPresent : Bool
  urlParses : Bool
  path : String
deriving DecidableEq

/-- The outcome of one iteration of the `serve` loop. -/
inductive ServeResult where
  /-- `Response::new_empty(StatusCode(400))` -/
  | badRequest
  /-- the handler hit a `continue` without responding (URL parse failure,
  or a read error after all checks passed) -/
  | dropped
  /-- `StatusCode(308)` with a `location` header -/
  | redirect (location : String)
  /-- a rendered index listing, with the optional section filter and the
  entries that pass it -/
  | indexPage (sect : Option String) (docs : List IndexEntry)
  /-- embedded bytes from `ASSETS`/`STYLES` -/
  | assetBytes (contents : String)
  /-- `Response::new_empty(StatusCode(404))` -/
  | notFound
  /-- a document run through `markdown_to_document` -/
  | renderedDoc (html : String)
  /-- `Response::from_data` on the raw file bytes (generic path) -/
  | rawFile (contents : String)
deriving DecidableEq

/-- `IndexTemplate::index` document filtering (lines 258–271): with a
section, keep entries whose path starts with the section name. -/
def indexDocs (snap : Snapshot) : Option String → List IndexEntry
  | some s => snap.index.filter (fun e => strStartsWith e.path s)
  | none => snap.index

/-- `&path.strip_suffix("/index.html").unwrap()[1..]` (line 344). -/
def sectionOfIndexPath (p : String) : String :=
  { data := (p.data.take (p.data.length - "/index.html".data.length)).drop 1 }

/-- `url.path_segments()` with the first segment consumed, then
`Split::remainder` (lines 358–360): `none` when no `/` follows the first
segment. -/
def segmentsRemainder (p : String) : Option String :=
  match splitOnChar '/' (p.data.drop 1) with
  | [] => none
  | [_] => none
  | _ :: more => some { data := joinChar '/' more }

/-- The segments of the candidate path as `std::path::absolute` sees them:
`Path` components drop empty and `.` segments but keep `..`. -/
def candidateSegs (p : String) : List String :=
  (strSegs p).filter (fun s => s ≠ "" ∧ s ≠ ".")

/-- `std::path::absolute(content_dir.join(path))` at the component level:
`Path::join` replaces the base when the argument is absolute, and
`absolute` prefixes the (already absolute) content dir without resolving
`..`. The content dir is the segment list `root`. -/
def absolutized (root : List String) (p : String) : List String :=
  if p.data.head? = some '/' then candidateSegs p
  else root ++ candidateSegs p

/-- `Path::file_name` of the absolutized path: the last component unless
it is `..`. -/
def fileNameOf (segs : List String) : Option String :=
  match segs.getLast? with
  | some n => if n = ".." then none else some n
  | none => none

/-- `path.file_name().is_some_and(|x| x.as_encoded_bytes().starts_with(b"."))`. -/
def hiddenLastName (segs : List String) : Bool :=
  (fileNameOf segs).any hiddenName

/-- `path.extension()` of the absolutized path. -/
def pathExtension (segs : List String) : Option String :=
  (fileNameOf segs).bind fileExtension

/-- Find the entry named `m` in a directory. -/
def FsEntries.find? : FsEntries → String → Option FsTree
  | .nil, _ => none
  | .cons n t rest, m => if n = m then some t else FsEntries.find? rest m

/-- Resolve a root-relative segment list in the content tree (the
`is_file` test and the `std::fs::read` that follows it). -/
def fsLookup : List String → FsTree → Option FsTree
  | [], t => some t
  | _ :: _, .file _ => none
  | n :: rest, .dir es =>
    match es.find? n with
    | some t => fsLookup rest t
    | none => none

/-- The generic (non-reserved) branch of `serve` (lines 389–444): strip
the leading slash, consult the allow-list, apply the traversal /
hidden-name / regular-file checks, then render or return the raw bytes. -/
def serveGeneric (ext : Externals) (snap : Snapshot) (root : List String)
    (tree : FsTree) (p : String) : ServeResult :=
  let candidate := strTail p
  -- the allow-list check (lines 392–397)
  if snap.index.any (fun e => decide (e.path = candidate)) = false then .notFound
  else
    let absSegs := absolutized root candidate
    -- traversal / hidden-name / regular-file checks (lines 407–415)
    if root.isPrefixOf absSegs = false then .notFound
    else if hiddenLastName absSegs then .notFound
    else
      match fsLookup (absSegs.drop root.length) tree with
      | some (.file contents) =>
        match pathExtension absSegs with
        | some e =>
          if e = "md" ∨ e = "markdown" then
            .renderedDoc (markdown_to_document ext snap.sections contents).1
          else .rawFile contents
        | none => .rawFile contents
      | _ => .notFound

/-- One iteration of the `serve` loop (lines 295–445) against the snapshot
`snap` (the value behind the read lock), the canonicalized content dir
`root`, and the live tree `tree`.  A read from a stable tree cannot fail,
so the read-error `continue` (lines 418–424) is unreachable here and the
lookup/read are merged. -/
def serve (ext : Externals) (snap : Snapshot) (root : List String)
    (tree : FsTree) (rq : HttpRequest) : ServeResult :=
  if rq.hostPresent = false then .badRequest
  else if rq.urlParses = false then .dropped
  else
    let p := rq.path
    if p = "/" then .redirect "/index.html"
    else if p = "/index.html" then .indexPage none (indexDocs snap none)
    else if strEndsWith p "/index.html" then
      .indexPage (some (sectionOfIndexPath p))
        (indexDocs snap (some (sectionOfIndexPath p)))
    else if strStartsWith p "/.static-assets" then
      match segmentsRemainder p with
      | none => .notFound
      | some r =>
        match ext.assets r with
        | some c => .assetBytes c
        | none => .notFound
    else if strStartsWith p "/.styles" then
      match segmentsRemainder p with
      | none => .notFound
      | some r =>
        match ext.styles r with
        | some c => .assetBytes c
        | none => .notFound
    else serveGeneric ext snap root tree p

/-! ### Hot reload controller (`main`, lines 65–81)

One iteration of the reload loop with the flag set, embedded two ways: the
snapshot it leaves installed, and the ordered trace of its lock and scan
actions. -/

/-- The snapshot installed after one reload attempt whose `State::load`
returned `r`: the new snapshot on success, the previous one untouched on
failure. -/
def reloadResult (prev : Snapshot) (r : Except String Snapshot) : Snapshot :=
  match r with
  | .ok s => s
  | .error _ => prev

/-- The primitive actions of one reload iteration. -/
inductive ReloadEvent where
  /-- `state.write().unwrap()` (line 68) -/
  | acquireWriteLock
  /-- the `State::load(&content_path)` call (line 69): the filesystem walk
  and the `git check-ignore` subprocess runs -/
  | runStateLoad
  /-- `*state = s` (line 72) -/
  | installSnapshot
  /-- the write guard is dropped at the end of the `if` block -/
  | releaseWriteLock
deriving DecidableEq

/-- The ordered action trace of one reload iteration (lines 66–78) whose
`State::load` returned `r`: the guard is taken first, the scan runs while
it is held, the install happens only on success, and the guard drops last. -/
def reloadEvents (r : Except String Snapshot) : List ReloadEvent :=
  [.acquireWriteLock, .runStateLoad] ++
    (match r with
     | .ok _ => [.installSnapshot]
     | .error _ => []) ++ [.releaseWriteLock]

/-! ### Stability of the insertion sort

An element of the sorted output that satisfies a predicate closed under the
sort order keeps its position relative to all other such elements: filtering
the sorted list equals filtering the input. -/

theorem filter_orderedInsert_pos {α : Type} (r : α → α → Prop) [DecidableRel r]
    (p : α → Bool) (x : α) (hx : p x = true) (h : ∀ b, ¬ r x b → p b = false) :
    ∀ l : List α, (List.orderedInsert r x l).filter p = x :: l.filter p
  | [] => by simp [hx]
  | b :: l => by
    by_cases hrb : r x b
    · simp [List.orderedInsert, if_pos hrb, List.filter_cons, hx]
    · have hpb : p b = false := h b hrb
      simp [List.orderedInsert, if_neg hrb, List.filter_cons, hpb,
        filter_orderedInsert_pos r p x hx h l]

theorem filter_orderedInsert_neg {α : Type} (r : α → α → Prop) [DecidableRel r]
    (p : α → Bool) (x : α) (hx : p x = false) :
    ∀ l : List α, (List.orderedInsert r x l).filter p = l.filter p
  | [] => by simp [hx]
  | b :: l => by
    by_cases hrb : r x b
    · simp [List.orderedInsert, if_pos hrb, List.filter_cons, hx]
    · simp [List.orderedInsert, if_neg hrb, List.filter_cons,
        filter_orderedInsert_neg r p x hx l]

theorem filter_insertionSort {α : Type} (r : α → α → Prop) [DecidableRel r]
    (p : α → Bool) (h : ∀ a b, p a = true → ¬ r a b → p b = false) :
    ∀ l : List α, (List.insertionSort r l).filter p = l.filter p
  | [] => rfl
  | a :: l => by
    by_cases hpa : p a = true
    · rw [List.insertionSort,
        filter_orderedInsert_pos r p a hpa (fun b => h a b hpa),
        filter_insertionSort r p h l, List.filter_cons, if_pos (by simp [hpa])]
    · rw [List.insertionSort,
        filter_orderedInsert_neg r p a (Bool.not_eq_true _ ▸ hpa),
        filter_insertionSort r p h l, List.filter_cons,
        if_neg (by simp_all)]

/-! ### Scan invariants

Every path component produced by a descent of the walk is a real directory
entry name that survived the hidden-name pruning. -/

/-- A path segment as the scanner can produce it: a nonempty, non-hidden
directory entry name (which, being a name, contains no separator). -/
def GoodSeg (s : String) : Prop :=
  s ≠ "" ∧ hiddenName s = false ∧ '/' ∉ s.data

/-- Shape of every index entry the scanner produces when the content root
is a directory: the path is a nonempty chain of good segments whose last
segment has a Markdown extension, and the section is the root sentinel or a
good segment. -/
def EntryGood (e : IndexEntry) : Prop :=
  ∃ pre last, e.path = joinSegs (pre ++ [last]) ∧ (∀ s ∈ pre ++ [last], GoodSeg s) ∧
    (fileExtension last = some "md" ∨ fileExtension last = some "markdown") ∧
    (e.sect = "" ∨ GoodSeg e.sect)

/-- The entry the Markdown branch of the callback pushes for a document at
root-relative segments `rel` whose render produced metadata `m`. -/
def scannedEntry (m : Meta) (rel : List String) : IndexEntry where
  meta := m
  sect := if rel.head?.getD "" = joinSegs rel then "" else rel.head?.getD ""
  path := joinSegs rel

theorem visitSections_index (isDir : Bool) (name : String) (rel : List String)
    (acc : ScanAcc) : (visitSections isDir name rel acc).index = acc.index := by
  unfold visitSections
  split
  · split <;> rfl
  · rfl

theorem visitIndex_spec (ext : Externals) (isDir : Bool) (name : String)
    (rel : List String) (contents : String) (acc : ScanAcc) :
    (visitIndex ext isDir name rel contents acc).1.index = acc.index ∨
    (hiddenName name = false ∧ isDir = false ∧
      (fileExtension name = some "md" ∨ fileExtension name = some "markdown") ∧
      ∃ m, (visitIndex ext isDir name rel contents acc).1.index =
        acc.index ++ [scannedEntry m rel]) := by
  unfold visitIndex
  by_cases hhid : hiddenName name
  · rw [if_pos hhid]
    exact Or.inl rfl
  · rw [if_neg hhid]
    by_cases hdir : isDir
    · rw [if_pos hdir]
      exact Or.inl rfl
    · rw [if_neg hdir]
      rcases hfe : fileExtension name with _ | e
      · exact Or.inl rfl
      · dsimp only
        by_cases hmd : e = "md" ∨ e = "markdown"
        · rw [if_pos hmd]
          rcases hmm : (markdown_to_document ext acc.sections contents).2 with _ | m
          · exact Or.inl rfl
          · refine Or.inr ⟨by simpa using hhid, by simpa using hdir, ?_, m, rfl⟩
            rcases hmd with rfl | rfl
            · exact Or.inl rfl
            · exact Or.inr rfl
        · rw [if_neg hmd]
          exact Or.inl rfl

theorem visit_index_spec (ext : Externals) (isDir : Bool) (name : String)
    (rel : List String) (contents : String) (acc : ScanAcc) :
    (visit ext isDir name rel contents acc).1.index = acc.index ∨
    (hiddenName name = false ∧ isDir = false ∧
      (fileExtension name = some "md" ∨ fileExtension name = some "markdown") ∧
      ∃ m, (visit ext isDir name rel contents acc).1.index =
        acc.index ++ [scannedEntry m rel]) := by
  have h := visitIndex_spec ext isDir name rel contents (visitSections isDir name rel acc)
  rw [visitSections_index] at h
  exact h

theorem visit_descend_not_hidden (ext : Externals) (isDir : Bool) (name : String)
    (rel : List String) (contents : String) (acc : ScanAcc)
    (h : (visit ext isDir name rel contents acc).2 = true) :
    hiddenName name = false := by
  by_contra hh
  rw [Bool.not_eq_false] at hh
  unfold visit visitIndex at h
  rw [if_pos hh] at h
  exact Bool.false_ne_true h

theorem visit_index_good (ext : Externals) (isDir : Bool) (name : String)
    (parentRel : List String) (contents : String) (acc : ScanAcc)
    (hrel : ∀ s ∈ parentRel, GoodSeg s) (hn : name ≠ "") (hs : '/' ∉ name.data)
    (hacc : ∀ e ∈ acc.index, EntryGood e) :
    ∀ e ∈ (visit ext isDir name (parentRel ++ [name]) contents acc).1.index,
      EntryGood e := by
  intro e he
  rcases visit_index_spec ext isDir name (parentRel ++ [name]) contents acc with
    h | ⟨hhid, _, hext, m, h⟩
  · rw [h] at he
    exact hacc e he
  · rw [h] at he
    rcases List.mem_append.mp he with he | he
    · exact hacc e he
    · rw [List.mem_singleton.mp he]
      have hgoods : ∀ s ∈ parentRel ++ [name], GoodSeg s := by
        intro s hsm
        rcases List.mem_append.mp hsm with h1 | h1
        · exact hrel s h1
        · rw [List.mem_singleton.mp h1]
          exact ⟨hn, hhid, hs⟩
      refine ⟨parentRel, name, rfl, hgoods, hext, ?_⟩
      unfold scannedEntry
      dsimp only
      split
      · exact Or.inl rfl
      · right
        cases parentRel with
        | nil => simpa using ⟨hn, hhid, hs⟩
        | cons a as => simpa using hrel a (by simp)

mutual
theorem scanTree_index_good (ext : Externals) (rel : List String) (name : String)
    (t : FsTree) (acc : ScanAcc) (hwf : t.Wf)
    (hrel : ∀ s ∈ rel, GoodSeg s) (hn : name ≠ "") (hs : '/' ∉ name.data)
    (hacc : ∀ e ∈ acc.index, EntryGood e) :
    ∀ e ∈ (scanTree ext rel name t acc).index, EntryGood e :=
  match t, hwf with
  | .file c, _ =>
    visit_index_good ext false name rel c acc hrel hn hs hacc
  | .dir sub, .dir _ hsub => by
    show ∀ e ∈ (if (visit ext true name (rel ++ [name]) "" acc).2 = true then
        scanEntries ext (rel ++ [name]) sub (visit ext true name (rel ++ [name]) "" acc).1
      else (visit ext true name (rel ++ [name]) "" acc).1).index, EntryGood e
    have hidx : (visit ext true name (rel ++ [name]) "" acc).1.index = acc.index := by
      rcases visit_index_spec ext true name (rel ++ [name]) "" acc with h | ⟨_, hfalse, _⟩
      · exact h
      · exact absurd hfalse (by simp)
    by_cases hv : (visit ext true name (rel ++ [name]) "" acc).2 = true
    · rw [if_pos hv]
      have hhid := visit_descend_not_hidden ext true name (rel ++ [name]) "" acc hv
      refine scanEntries_index_good ext (rel ++ [name]) sub _ hsub ?_ ?_
      · intro s hsm
        rcases List.mem_append.mp hsm with h1 | h1
        · exact hrel s h1
        · rw [List.mem_singleton.mp h1]
          exact ⟨hn, hhid, hs⟩
      · rw [hidx]
        exact hacc
    · rw [if_neg hv]
      rw [hidx]
      exact hacc

theorem scanEntries_index_good (ext : Externals) (rel : List String)
    (es : FsEntries) (acc : ScanAcc) (hwf : es.Wf)
    (hrel : ∀ s ∈ rel, GoodSeg s)
    (hacc : ∀ e ∈ acc.index, EntryGood e) :
    ∀ e ∈ (scanEntries ext rel es acc).index, EntryGood e :=
  match es, hwf with
  | .nil, _ => hacc
  | .cons n t rest, .cons _ _ _ hn hs ht hrest =>
    scanEntries_index_good ext rel rest _ hrest hrel
      (scanTree_index_good ext rel n t acc ht hrel hn hs hacc)
end

theorem scanRoot_index_good (ext : Externals) (rootName : String)
    (es : FsEntries) (hwf : FsTree.Wf (.dir es)) :
    ∀ e ∈ (scanRoot ext rootName (.dir es)).index, EntryGood e := by
  cases hwf with
  | dir _ h =>
    exact scanEntries_index_good ext [] es { sections := [], index := [] } h
      (by intro s hsm; cases hsm) (by intro e he; cases he)

/-! ### `State::load` level lemmas -/

theorem load_of_filtered {ext : Externals} {foundGit : Bool} {rootName : String}
    {tree : FsTree} {si : List String × List IndexEntry}
    (h : loadFiltered ext foundGit rootName tree = .ok si) :
    State.load ext foundGit rootName tree = .ok (finalize si) := by
  unfold State.load
  rw [h]
  rfl

theorem load_ok_inv {ext : Externals} {foundGit : Bool} {rootName : String}
    {tree : FsTree} {snap : Snapshot}
    (h : State.load ext foundGit rootName tree = .ok snap) :
    ∃ si, loadFiltered ext foundGit rootName tree = .ok si ∧ snap = finalize si := by
  unfold State.load at h
  cases hlf : loadFiltered ext foundGit rootName tree with
  | error e => rw [hlf] at h; cases h
  | ok si =>
    rw [hlf] at h
    cases h
    exact ⟨si, rfl, rfl⟩

theorem loadFiltered_ok_spec {ext : Externals} {foundGit : Bool}
    {rootName : String} {tree : FsTree} {secs : List String}
    {idx : List IndexEntry}
    (h : loadFiltered ext foundGit rootName tree = .ok (secs, idx)) :
    (∀ e ∈ idx, e ∈ (scanRoot ext rootName tree).index) ∧
    (∀ s ∈ secs, ∃ e ∈ (scanRoot ext rootName tree).index, e.sect = s) := by
  unfold loadFiltered at h
  have hsec0 : ∀ s ∈ (scanRoot ext rootName tree).sections.filter
      (fun s => (scanRoot ext rootName tree).index.any (fun i => decide (i.sect = s))),
      ∃ e ∈ (scanRoot ext rootName tree).index, e.sect = s := by
    intro s hsm
    have := List.of_mem_filter hsm
    rcases List.any_eq_true.mp this with ⟨e, he, hdec⟩
    exact ⟨e, he, of_decide_eq_true hdec⟩
  cases foundGit with
  | false =>
    rw [if_neg (by simp)] at h
    injection h with h
    injection h with h1 h2
    subst h1
    subst h2
    exact ⟨fun e he => he, hsec0⟩
  | true =>
    rw [if_pos rfl] at h
    cases hgs : gitRetainSections ext
        ((scanRoot ext rootName tree).sections.filter
          (fun s => (scanRoot ext rootName tree).index.any (fun i => decide (i.sect = s)))) with
    | error e => rw [hgs] at h; cases h
    | ok sections1 =>
      rw [hgs] at h
      cases hgi : gitRetainIndex ext (scanRoot ext rootName tree).index with
      | error e => rw [hgi] at h; cases h
      | ok index1 =>
        rw [hgi] at h
        injection h with h
        injection h with h1 h2
        subst h1
        subst h2
        constructor
        · intro e he
          unfold gitRetainIndex at hgi
          split at hgi
          · injection hgi with hgi
            rw [hgi]
            exact he
          · split at hgi
            · cases hgi
            · injection hgi with hgi
              rw [← hgi] at he
              exact List.mem_of_mem_filter he
        · intro s hsm
          unfold gitRetainSections at hgs
          split at hgs
          · injection hgs with hgs
            rw [← hgs] at hsm
            exact hsec0 s hsm
          · split at hgs
            · cases hgs
            · injection hgs with hgs
              rw [← hgs] at hsm
              exact hsec0 s (List.mem_of_mem_filter hsm)

/-- No `/`-separated segment of the string names a hidden entry. -/
def noHiddenSeg (p : String) : Prop :=
  ∀ s ∈ strSegs p, hiddenName s = false

theorem noHiddenSeg_empty : noHiddenSeg "" := by
  intro s hs
  have he : strSegs "" = [""] := rfl
  rw [he] at hs
  rw [List.mem_singleton.mp hs]
  rfl

theorem noHiddenSeg_of_good {s : String} (h : GoodSeg s) : noHiddenSeg s := by
  intro x hx
  rw [strSegs_of_not_mem h.2.2] at hx
  rw [List.mem_singleton.mp hx]
  exact h.2.1

theorem noHiddenSeg_of_entryGood {e : IndexEntry} (h : EntryGood e) :
    noHiddenSeg e.path := by
  rcases h with ⟨pre, last, hpath, hgoods, _, _⟩
  intro x hx
  rw [hpath, strSegs_joinSegs (by simp) (fun s hs => (hgoods s hs).2.2)] at hx
  exact (hgoods x hx).2.1

/-- Everything in a snapshot successfully loaded from a well-formed
directory tree is made of good segments. -/
theorem load_good {ext : Externals} {foundGit : Bool} {rootName : String}
    {es : FsEntries} {snap : Snapshot}
    (hwf : FsTree.Wf (.dir es))
    (h : State.load ext foundGit rootName (.dir es) = .ok snap) :
    (∀ e ∈ snap.index, EntryGood e) ∧ (∀ s ∈ snap.sections, s = "" ∨ GoodSeg s) := by
  rcases load_ok_inv h with ⟨⟨secs, idx⟩, hlf, rfl⟩
  rcases loadFiltered_ok_spec hlf with ⟨hidx, hsecs⟩
  have hscan := scanRoot_index_good ext rootName es hwf
  constructor
  · intro e he
    exact hscan e (hidx e ((List.mem_insertionSort dateGe).mp he))
  · intro s hs
    have hs' : s ∈ secs ++ [""] := (List.mem_insertionSort strLe).mp hs
    rcases List.mem_append.mp hs' with hs' | hs'
    · rcases hsecs s hs' with ⟨e, he, hsect⟩
      rcases hscan e he with ⟨pre, last, _, _, _, hsect_good⟩
      rcases hsect_good with h0 | h0
      · exact Or.inl (hsect ▸ h0)
      · exact Or.inr (hsect ▸ h0)
    · exact Or.inl (List.mem_singleton.mp hs')

/-! ### Router lemmas -/

/-- The response carries content read from the content tree (the two
`respond` calls of the generic branch, lines 431–443). -/
def ServeResult.isContent : ServeResult → Bool
  | .renderedDoc _ => true
  | .rawFile _ => true
  | _ => false

/-- Every response of `serve` either comes from the generic branch or is
not a content response. -/
theorem serve_content_or (ext : Externals) (snap : Snapshot) (root : List String)
    (tree : FsTree) (rq : HttpRequest) :
    serve ext snap root tree rq = serveGeneric ext snap root tree rq.path ∨
    (serve ext snap root tree rq).isContent = false := by
  unfold serve
  dsimp only
  split
  · exact Or.inr rfl
  split
  · exact Or.inr rfl
  split
  · exact Or.inr rfl
  split
  · exact Or.inr rfl
  split
  · exact Or.inr rfl
  split
  · refine Or.inr ?_
    split
    · rfl
    · split <;> rfl
  split
  · refine Or.inr ?_
    split
    · rfl
    · split <;> rfl
  · exact Or.inl rfl

/-- A content response from the generic branch passed the allow-list
check. -/
theorem serveGeneric_content_allowlist {ext : Externals} {snap : Snapshot}
    {root : List String} {tree : FsTree} {p : String}
    (h : (serveGeneric ext snap root tree p).isContent = true) :
    snap.index.any (fun e => decide (e.path = strTail p)) = true := by
  unfold serveGeneric at h
  dsimp only at h
  split at h
  · exact absurd h (by simp [ServeResult.isContent])
  · rename_i hany
    cases hb : snap.index.any (fun e => decide (e.path = strTail p)) with
    | true => rfl
    | false => exact absurd hb hany

/-- A content response from `serve` passed the allow-list check. -/
theorem serve_content_allowlist {ext : Externals} {snap : Snapshot}
    {root : List String} {tree : FsTree} {rq : HttpRequest}
    (h : (serve ext snap root tree rq).isContent = true) :
    snap.index.any (fun e => decide (e.path = strTail rq.path)) = true := by
  rcases serve_content_or ext snap root tree rq with heq | hfalse
  · exact serveGeneric_content_allowlist (heq ▸ h)
  · rw [h] at hfalse
    cases hfalse

/-- With the route conditions of the generic branch, `serve` is exactly
`serveGeneric`. -/
theorem serve_eq_generic (ext : Externals) (snap : Snapshot) (root : List String)
    (tree : FsTree) (rq : HttpRequest)
    (hh : rq.hostPresent = true) (hu : rq.urlParses = true)
    (h1 : rq.path ≠ "/") (h2 : rq.path ≠ "/index.html")
    (h3 : strEndsWith rq.path "/index.html" = false)
    (h4 : strStartsWith rq.path "/.static-assets" = false)
    (h5 : strStartsWith rq.path "/.styles" = false) :
    serve ext snap root tree rq = serveGeneric ext snap root tree rq.path := by
  unfold serve
  dsimp only
  rw [if_neg (by simp [hh]), if_neg (by simp [hu]), if_neg h1, if_neg h2,
    if_neg (by simp [h3]), if_neg (by simp [h4]), if_neg (by simp [h5])]

/-- The allow-list rejection: a candidate matching no index entry is
answered 404 by the generic branch. -/
theorem serveGeneric_notFound_of_not_indexed {ext : Externals} {snap : Snapshot}
    {root : List String} {tree : FsTree} {p : String}
    (h : snap.index.any (fun e => decide (e.path = strTail p)) = false) :
    serveGeneric ext snap root tree p = .notFound := by
  unfold serveGeneric
  dsimp only
  rw [if_pos h]

theorem data_ne_nil_of_ne_empty {s : String} (h : s ≠ "") : s.data ≠ [] := by
  intro hd
  apply h
  cases s with
  | mk l =>
    cases hd
    rfl

theorem joinSegs_not_absolute {segs : List String} (hne : segs ≠ [])
    (hgood : ∀ s ∈ segs, GoodSeg s) :
    ¬ (joinSegs segs).data.head? = some '/' := by
  cases segs with
  | nil => exact absurd rfl hne
  | cons s0 rest =>
    have h0 : GoodSeg s0 := hgood s0 (by simp)
    intro hcontra
    unfold joinSegs at hcontra
    rw [List.map_cons, joinChar_head?] at hcontra
    have hmem : '/' ∈ s0.data := by
      rcases hd : s0.data with _ | ⟨x, xs⟩
      · exact absurd hd (data_ne_nil_of_ne_empty h0.1)
      · split at hcontra <;>
          (rw [hd] at hcontra
           simp only [List.cons_append, List.head?_cons, Option.some.injEq] at hcontra
           rw [hcontra]
           exact List.mem_cons_self _ _)
    exact h0.2.2 hmem

theorem candidateSegs_joinSegs {segs : List String} (hne : segs ≠ [])
    (hgood : ∀ s ∈ segs, GoodSeg s) : candidateSegs (joinSegs segs) = segs := by
  unfold candidateSegs
  rw [strSegs_joinSegs hne (fun s hs => (hgood s hs).2.2)]
  apply List.filter_eq_self.mpr
  intro s hs
  have h := hgood s hs
  apply decide_eq_true
  refine ⟨h.1, ?_⟩
  intro hdot
  have : hiddenName s = true := by rw [hdot]; rfl
  rw [h.2.1] at this
  cases this

theorem absolutized_of_good {root : List String} {segs : List String}
    (hne : segs ≠ []) (hgood : ∀ s ∈ segs, GoodSeg s) :
    absolutized root (joinSegs segs) = root ++ segs := by
  unfold absolutized
  rw [if_neg (joinSegs_not_absolute hne hgood)]
  rw [candidateSegs_joinSegs hne hgood]

theorem pathExtension_append_good {root pre : List String} {last : String}
    (hlast : GoodSeg last) :
    pathExtension (root ++ (pre ++ [last])) = fileExtension last := by
  unfold pathExtension fileNameOf
  have hgl : (root ++ (pre ++ [last])).getLast? = some last := by
    rw [← List.append_assoc]
    exact List.getLast?_concat _
  have hdd : ¬ (last = "..") := by
    intro hdd
    have h2 : hiddenName last = true := by rw [hdd]; rfl
    rw [hlast.2.1] at h2
    cases h2
  rw [hgl]
  dsimp only
  rw [if_neg hdd]
  rfl

/-- When every index entry is scanner-shaped, the generic branch never
reaches its raw-bytes arm: an allow-listed candidate always carries a
Markdown extension. -/
theorem serveGeneric_no_raw {ext : Externals} {snap : Snapshot}
    {root : List String} {tree : FsTree}
    (hgood : ∀ e ∈ snap.index, EntryGood e) (p : String) (c : String) :
    serveGeneric ext snap root tree p ≠ .rawFile c := by
  intro h
  unfold serveGeneric at h
  dsimp only at h
  split at h
  · cases h
  · rename_i hany
    have hany' : snap.index.any (fun e => decide (e.path = strTail p)) = true := by
      cases hb : snap.index.any (fun e => decide (e.path = strTail p)) with
      | true => rfl
      | false => exact absurd hb hany
    rcases List.any_eq_true.mp hany' with ⟨e, he, hdec⟩
    have hpath : e.path = strTail p := of_decide_eq_true hdec
    rcases hgood e he with ⟨pre, last, hpe, hgoods, hext, _⟩
    have habs : absolutized root (strTail p) = root ++ (pre ++ [last]) := by
      rw [← hpath, hpe]
      exact absolutized_of_good (by simp) hgoods
    have hpx : pathExtension (absolutized root (strTail p)) = fileExtension last := by
      rw [habs]
      exact pathExtension_append_good (hgoods last (by simp))
    split at h
    · cases h
    · split at h
      · cases h
      · split at h
        · rename_i contents heq
          split at h
          · rename_i e' hpe'
            split at h
            · cases h
            · rename_i hmd
              rw [hpx] at hpe'
              rcases hext with hx | hx <;>
                (rw [hx] at hpe'
                 injection hpe' with hpe'
                 exact hmd (by rw [← hpe']; simp))
          · rename_i hpe'
            rw [hpx] at hpe'
            rcases hext with hx | hx <;> (rw [hx] at hpe'; cases hpe')
        · cases h

/-! ### Rendering-pipeline lemmas -/

/-- The text runs the `filter_map` of `markdown_to_document` processes
while in the `Meta` state — i.e. the contents of the document's `meta`
front-matter blocks.  The `ParseState` transitions depend only on the
event shapes (a `meta`-labelled fence enters `Meta`, any other fence
enters `Highlight`, a block end always returns to `Normal`), never on any
oracle result, so this set is computable from the event stream alone.
Empty exactly when the document has no `meta` block text. -/
def metaTexts (st : ParseState) : List MdEvent → List String
  | [] => []
  | .startFence lang :: rest =>
    metaTexts (if rustTrim lang = "meta" then .meta else .highlight) rest
  | .text s :: rest =>
    match st with
    | .meta => s :: metaTexts .meta rest
    | _ => metaTexts st rest
  | .endCodeBlock :: rest => metaTexts .normal rest
  | .html _ :: rest => metaTexts st rest
  | .other _ :: rest => metaTexts st rest

theorem mdRun_cons (ext : Externals) (acc : MdAcc) (ev : MdEvent)
    (rest : List MdEvent) :
    (mdRun ext acc (ev :: rest)).1 = (mdRun ext (mdStep ext acc ev).1 rest).1 := rfl

/-- If the TOML oracle rejects every text run lying inside a `meta` block
(vacuously so when the document has no `meta` block), the metadata stays
unset: the `Err` arm at line 526 only logs, and text runs outside the
`Meta` state are never fed to the TOML parser at all. -/
theorem mdRun_meta_none_of_metaTexts_fail (ext : Externals) :
    ∀ (evs : List MdEvent) (acc : MdAcc),
      (∀ s ∈ metaTexts acc.state evs, ext.parseMeta s = none) →
      acc.meta = none → (mdRun ext acc evs).1.meta = none
  | [], _, _, hmeta => hmeta
  | ev :: rest, acc, h, hmeta => by
    obtain ⟨st, code, mt, syn⟩ := acc
    dsimp only at h hmeta
    subst hmeta
    rw [mdRun_cons]
    cases ev with
    | startFence lang =>
      simp only [metaTexts] at h
      by_cases hl : rustTrim lang = "meta"
      · rw [if_pos hl] at h
        have hstep : (mdStep ext ⟨st, code, none, syn⟩ (.startFence lang)).1 =
            ⟨.meta, code, none, syn⟩ := by
          simp only [mdStep]
          rw [if_pos hl]
        rw [hstep]
        exact mdRun_meta_none_of_metaTexts_fail ext rest _ h rfl
      · rw [if_neg hl] at h
        have hstep : (mdStep ext ⟨st, code, none, syn⟩ (.startFence lang)).1 =
            ⟨.highlight, code, none,
              (ext.findSynByToken (rustTrim lang)).getD ext.plainTextSyn⟩ := by
          simp only [mdStep]
          rw [if_neg hl]
        rw [hstep]
        exact mdRun_meta_none_of_metaTexts_fail ext rest _ h rfl
    | text s =>
      cases st with
      | normal =>
        simp only [metaTexts] at h
        exact mdRun_meta_none_of_metaTexts_fail ext rest _ h rfl
      | meta =>
        simp only [metaTexts, List.mem_cons] at h
        have hps : ext.parseMeta s = none := h s (Or.inl rfl)
        have hstep : (mdStep ext ⟨.meta, code, none, syn⟩ (.text s)).1 =
            ⟨.meta, code, none, syn⟩ := by
          simp only [mdStep]
          rw [hps]
        rw [hstep]
        exact mdRun_meta_none_of_metaTexts_fail ext rest _
          (fun x hx => h x (Or.inr hx)) rfl
      | highlight =>
        simp only [metaTexts] at h
        exact mdRun_meta_none_of_metaTexts_fail ext rest _ h rfl
    | endCodeBlock =>
      simp only [metaTexts] at h
      cases st with
      | normal => exact mdRun_meta_none_of_metaTexts_fail ext rest _ h rfl
      | meta => exact mdRun_meta_none_of_metaTexts_fail ext rest _ h rfl
      | highlight => exact mdRun_meta_none_of_metaTexts_fail ext rest _ h rfl
    | html s =>
      simp only [metaTexts] at h
      exact mdRun_meta_none_of_metaTexts_fail ext rest _ h rfl
    | other q =>
      simp only [metaTexts] at h
      exact mdRun_meta_none_of_metaTexts_fail ext rest _ h rfl

/-- The metadata half of `markdown_to_document` does not depend on the
known-sections argument. -/
theorem markdown_meta_eq (ext : Externals) (s1 s2 : List String) (c : String) :
    (markdown_to_document ext s1 c).2 = (markdown_to_document ext s2 c).2 := rfl

/-- A document whose render produced no metadata adds nothing to the index
(any callback invocation, any accumulator). -/
theorem visitIndex_unchanged_of_no_meta {ext : Externals} {contents : String}
    (hmeta : ∀ s : List String, (markdown_to_document ext s contents).2 = none)
    (isDir : Bool) (name : String) (rel : List String) (acc : ScanAcc) :
    (visitIndex ext isDir name rel contents acc).1.index = acc.index := by
  unfold visitIndex
  by_cases hhid : hiddenName name
  · rw [if_pos hhid]
  · rw [if_neg hhid]
    by_cases hdir : isDir
    · rw [if_pos hdir]
    · rw [if_neg hdir]
      rcases hfe : fileExtension name with _ | e
      · rfl
      · dsimp only
        by_cases hmd : e = "md" ∨ e = "markdown"
        · rw [if_pos hmd, hmeta acc.sections]
        · rw [if_neg hmd]

theorem visit_index_unchanged_of_no_meta {ext : Externals} {contents : String}
    (hmeta : ∀ s : List String, (markdown_to_document ext s contents).2 = none)
    (isDir : Bool) (name : String) (rel : List String) (acc : ScanAcc) :
    (visit ext isDir name rel contents acc).1.index = acc.index := by
  unfold visit
  rw [visitIndex_unchanged_of_no_meta hmeta, visitSections_index]

/-! ### The scan never consults git

With `foundGit = false` (the tool is absent from the search path), the
whole of `State::load` is independent of the `git` oracle: the filter step
is skipped and nothing is treated as ignored. -/

theorem mdStep_git_irrel (ext : Externals) (g : List String → GitOutcome)
    (acc : MdAcc) (ev : MdEvent) :
    mdStep { ext with git := g } acc ev = mdStep ext acc ev := rfl

theorem mdRun_git_irrel (ext : Externals) (g : List String → GitOutcome) :
    ∀ (evs : List MdEvent) (acc : MdAcc),
      mdRun { ext with git := g } acc evs = mdRun ext acc evs
  | [], _ => rfl
  | ev :: rest, acc => by
    simp only [mdRun, mdStep_git_irrel, mdRun_git_irrel ext g rest]

theorem markdown_git_irrel (ext : Externals) (g : List String → GitOutcome)
    (secs : List String) (c : String) :
    markdown_to_document { ext with git := g } secs c =
      markdown_to_document ext secs c := by
  unfold markdown_to_document
  rw [mdRun_git_irrel]
  rfl

theorem visit_git_irrel (ext : Externals) (g : List String → GitOutcome)
    (isDir : Bool) (name : String) (rel : List String) (contents : String)
    (acc : ScanAcc) :
    visit { ext with git := g } isDir name rel contents acc =
      visit ext isDir name rel contents acc := by
  unfold visit visitIndex
  rw [markdown_git_irrel]

mutual
theorem scanTree_git_irrel (ext : Externals) (g : List String → GitOutcome)
    (rel : List String) (name : String) (t : FsTree) (acc : ScanAcc) :
    scanTree { ext with git := g } rel name t acc = scanTree ext rel name t acc :=
  match t with
  | .file c => by
    simp only [scanTree, visit_git_irrel]
  | .dir sub => by
    simp only [scanTree, visit_git_irrel, scanEntries_git_irrel ext g]

theorem scanEntries_git_irrel (ext : Externals) (g : List String → GitOutcome)
    (rel : List String) (es : FsEntries) (acc : ScanAcc) :
    scanEntries { ext with git := g } rel es acc = scanEntries ext rel es acc :=
  match es with
  | .nil => rfl
  | .cons n t rest => by
    simp only [scanEntries, scanTree_git_irrel ext g,
      scanEntries_git_irrel ext g rel rest]
end

theorem scanRoot_git_irrel (ext : Externals) (g : List String → GitOutcome)
    (rootName : String) (tree : FsTree) :
    scanRoot { ext with git := g } rootName tree = scanRoot ext rootName tree := by
  cases tree with
  | file c => simp only [scanRoot, visit_git_irrel]
  | dir es => simp only [scanRoot, scanEntries_git_irrel ext g]

theorem load_noGit_git_irrel (ext : Externals) (g : List String → GitOutcome)
    (rootName : String) (tree : FsTree) :
    State.load { ext with git := g } false rootName tree =
      State.load ext false rootName tree := by
  unfold State.load loadFiltered
  rw [scanRoot_git_irrel]
  rfl

/-! ### Concrete instances used by witnesses and counterexamples -/

/-- A metadata block as `toml` would parse it. -/
def exMeta : Meta := { title := "T", date := 20240501, lang := none, desc := none }

/-- Concrete oracle functions: `"DOC"` tokenizes to a well-formed `meta`
block plus body, `"BAD"` to a `meta` block whose text the TOML parser
rejects, anything else to plain body; git exits 1 with empty output (no
ignored paths). -/
def exExt : Externals where
  parseMarkdown := fun c =>
    if c = "DOC" then [.startFence "meta", .text "META", .endCodeBlock, .other "body"]
    else if c = "BAD" then [.startFence "meta", .text "JUNK", .endCodeBlock, .other "body"]
    else [.other "body"]
  parseMeta := fun s => if s = "META" then some exMeta else none
  findSynByToken := fun _ => none
  plainTextSyn := "plain"
  highlightHtml := fun _ _ => none
  pushHtml := fun _ => "HTML"
  renderDocument := fun _ _ _ => "PAGE"
  assets := fun _ => none
  styles := fun _ => none
  git := fun _ => { code := some 1, stdout := "", stderr := "" }

/-- Same oracles, but `git check-ignore` exits 128 ("not a repository"). -/
def exExtFail : Externals :=
  { exExt with git := fun _ => { code := some 128, stdout := "", stderr := "boom" } }

/-- A content tree with two `.section.toml` markers below the same
top-level directory `foo` plus one indexed document. -/
def exEntries : FsEntries :=
  .ofList [("foo", .dir (.ofList [(".section.toml", .file ""),
            ("bar", .dir (.ofList [(".section.toml", .file "")])),
            ("doc.md", .file "DOC")]))]

def exTree : FsTree := .dir exEntries

/-- A content tree holding a single indexed document at the root. -/
def exDocEntries : FsEntries := .ofList [("doc.md", .file "DOC")]

def exDocTree : FsTree := .dir exDocEntries

/-- The one index entry `exTree` produces. -/
def exEntry : IndexEntry := { meta := exMeta, sect := "foo", path := "foo/doc.md" }

theorem exEntries_wf : FsTree.Wf (.dir exEntries) := by
  refine .dir _ (.cons _ _ _ (by decide) (by decide) ?_ .nil)
  refine .dir _ (.cons _ _ _ (by decide) (by decide) (.file _) ?_)
  refine .cons _ _ _ (by decide) (by decide) ?_ ?_
  · exact .dir _ (.cons _ _ _ (by decide) (by decide) (.file _) .nil)
  · exact .cons _ _ _ (by decide) (by decide) (.file _) .nil

/-! ### The claims -/

/-- C1: for a request that is not the root, not an index page, and not
under the reserved static-assets/styles prefixes, a rendered-document or
raw-bytes response is only produced when the path (leading slash stripped)
equals some `IndexEntry.path` of the snapshot used to serve it, and every
such path matching no entry is answered 404. -/
theorem serve_allowlist_invariant (ext : Externals) (snap : Snapshot)
    (root : List String) (tree : FsTree) (rq : HttpRequest)
    (hh : rq.hostPresent = true) (hu : rq.urlParses = true)
    (h1 : rq.path ≠ "/") (h2 : rq.path ≠ "/index.html")
    (h3 : strEndsWith rq.path "/index.html" = false)
    (h4 : strStartsWith rq.path "/.static-assets" = false)
    (h5 : strStartsWith rq.path "/.styles" = false) :
    ((serve ext snap root tree rq).isContent = true →
      snap.index.any (fun e => decide (e.path = strTail rq.path)) = true) ∧
    (snap.index.any (fun e => decide (e.path = strTail rq.path)) = false →
      serve ext snap root tree rq = .notFound) := by
  constructor
  · exact fun h => serve_content_allowlist h
  · intro hany
    rw [serve_eq_generic ext snap root tree rq hh hu h1 h2 h3 h4 h5]
    exact serveGeneric_notFound_of_not_indexed hany

theorem serve_allowlist_invariant_witness :
    ((serve exExt { sections := [""], index := [] } [] (.dir .nil)
        { hostPresent := true, urlParses := true, path := "/nope" }).isContent = true →
      (Snapshot.mk [""] []).index.any
        (fun e => decide (e.path = strTail "/nope")) = true) ∧
    ((Snapshot.mk [""] []).index.any
        (fun e => decide (e.path = strTail "/nope")) = false →
      serve exExt { sections := [""], index := [] } [] (.dir .nil)
        { hostPresent := true, urlParses := true, path := "/nope" } = .notFound) :=
  serve_allowlist_invariant exExt { sections := [""], index := [] } [] (.dir .nil)
    { hostPresent := true, urlParses := true, path := "/nope" }
    rfl rfl (by decide) (by decide) (by decide) (by decide) (by decide)

/-- C2 counterexample: two `.section.toml` markers under the same top-level
directory make `State::load` push the section name twice, and nothing ever
deduplicates `sections` — the loaded snapshot's sections are
`["", "foo", "foo"]`, which is not duplicate-free. -/
theorem load_sections_duplicate_counterexample :
    (State.load exExt false "root" exTree).map Snapshot.sections =
      .ok ["", "foo", "foo"] ∧
    ¬ (["", "foo", "foo"] : List String).Nodup :=
  ⟨rfl, by decide⟩

/-- C2 (amended): the sections of every successfully loaded snapshot
always contain the empty string and are lexicographically sorted, but they
may contain duplicate entries (no deduplication is performed). -/
theorem load_sections_sorted_and_root (ext : Externals) (foundGit : Bool)
    (rootName : String) (tree : FsTree) (snap : Snapshot)
    (h : State.load ext foundGit rootName tree = .ok snap) :
    "" ∈ snap.sections ∧ snap.sections.Sorted strLe := by
  rcases load_ok_inv h with ⟨⟨secs, idx⟩, hlf, rfl⟩
  constructor
  · exact (List.mem_insertionSort strLe).mpr (List.mem_append_right _ (by simp))
  · exact List.sorted_insertionSort strLe _

theorem load_sections_sorted_and_root_witness :
    "" ∈ (Snapshot.mk ["", "foo", "foo"] [exEntry]).sections ∧
    (Snapshot.mk ["", "foo", "foo"] [exEntry]).sections.Sorted strLe :=
  load_sections_sorted_and_root exExt false "root" exTree
    { sections := ["", "foo", "foo"], index := [exEntry] } rfl

/-- C3: the index of every successfully loaded snapshot is sorted by
metadata date descending, and entries with equal dates keep the encounter
order they had at the end of the scan (the list the sort was applied to). -/
theorem load_index_sorted_stable (ext : Externals) (foundGit : Bool)
    (rootName : String) (tree : FsTree) (secs : List String)
    (idx : List IndexEntry)
    (h : loadFiltered ext foundGit rootName tree = .ok (secs, idx)) :
    ∃ snap, State.load ext foundGit rootName tree = .ok snap ∧
      snap.index.Sorted dateGe ∧
      ∀ d : Date, snap.index.filter (fun e => decide (e.meta.date = d)) =
        idx.filter (fun e => decide (e.meta.date = d)) := by
  refine ⟨finalize (secs, idx), load_of_filtered h, ?_, ?_⟩
  · exact List.sorted_insertionSort dateGe _
  · intro d
    apply filter_insertionSort
    intro a b hpa hr
    have ha : a.meta.date = d := of_decide_eq_true hpa
    apply decide_eq_false
    intro hb
    apply hr
    unfold dateGe
    rw [hb, ha]

theorem load_index_sorted_stable_witness :
    ∃ snap, State.load exExt false "root" exTree = .ok snap ∧
      snap.index.Sorted dateGe ∧
      ∀ d : Date, snap.index.filter (fun e => decide (e.meta.date = d)) =
        [exEntry].filter (fun e => decide (e.meta.date = d)) :=
  load_index_sorted_stable exExt false "root" exTree ["foo", "foo"] [exEntry] rfl

/-- C4: when a reload's `State::load` fails, the previously installed
snapshot is left unchanged, and a request served afterwards resolves
against that prior snapshot. -/
theorem reload_failure_preserves_snapshot (ext : Externals) (foundGit : Bool)
    (rootName : String) (tree : FsTree) (prev : Snapshot) (msg : String)
    (root : List String) (stree : FsTree) (rq : HttpRequest)
    (h : State.load ext foundGit rootName tree = .error msg) :
    reloadResult prev (State.load ext foundGit rootName tree) = prev ∧
    serve ext (reloadResult prev (State.load ext foundGit rootName tree)) root stree rq =
      serve ext prev root stree rq := by
  rw [h]
  exact ⟨rfl, rfl⟩

theorem reload_failure_preserves_snapshot_witness :
    reloadResult { sections := [""], index := [] }
        (State.load exExtFail true "root" exDocTree) =
      { sections := [""], index := [] } ∧
    serve exExtFail
        (reloadResult { sections := [""], index := [] }
          (State.load exExtFail true "root" exDocTree))
        [] (.dir .nil) { hostPresent := true, urlParses := true, path := "/" } =
      serve exExtFail { sections := [""], index := [] } [] (.dir .nil)
        { hostPresent := true, urlParses := true, path := "/" } :=
  reload_failure_preserves_snapshot exExtFail true "root" exDocTree
    { sections := [""], index := [] } (gitFailMsg "" "boom") [] (.dir .nil)
    { hostPresent := true, urlParses := true, path := "/" } rfl

/-- C5 counterexample: the reload iteration acquires the write lock first
and runs the whole `State::load` (walk and git subprocess included) while
holding it — the build does not happen outside the lock, and the lock is
not held only for the swap. -/
theorem reload_load_under_lock_counterexample :
    reloadEvents (.error "boom") =
      [.acquireWriteLock, .runStateLoad, .releaseWriteLock] ∧
    reloadEvents (.ok { sections := [""], index := [] }) =
      [.acquireWriteLock, .runStateLoad, .installSnapshot, .releaseWriteLock] :=
  ⟨rfl, rfl⟩

/-- C5 (amended): in every reload iteration the write lock is acquired
before the `State::load` rebuild starts and released only after it (and
after the install, on success) finishes — readers block for the whole scan. -/
theorem reload_lock_order (r : Except String Snapshot) :
    (reloadEvents r).indexOf .acquireWriteLock <
      (reloadEvents r).indexOf .runStateLoad ∧
    (reloadEvents r).indexOf .runStateLoad <
      (reloadEvents r).indexOf .releaseWriteLock ∧
    (.installSnapshot ∈ reloadEvents r ↔ ∃ s, r = .ok s) := by
  cases r with
  | ok s =>
    have he : reloadEvents (.ok s) =
        [.acquireWriteLock, .runStateLoad, .installSnapshot, .releaseWriteLock] := rfl
    rw [he]
    exact ⟨by decide, by decide, by simp⟩
  | error e =>
    have he : reloadEvents (.error e) =
        [.acquireWriteLock, .runStateLoad, .releaseWriteLock] := rfl
    rw [he]
    exact ⟨by decide, by decide, by simp⟩

theorem reload_lock_order_witness :
    (reloadEvents (.error "boom")).indexOf .acquireWriteLock <
      (reloadEvents (.error "boom")).indexOf .runStateLoad ∧
    (reloadEvents (.error "boom")).indexOf .runStateLoad <
      (reloadEvents (.error "boom")).indexOf .releaseWriteLock ∧
    (.installSnapshot ∈ reloadEvents (.error "boom") ↔
      ∃ s, (Except.error "boom" : Except String Snapshot) = .ok s) :=
  reload_lock_order (.error "boom")

/-- C6 counterexample: a request with a Host header whose URL does not
parse is dropped without any response (the handler logs and `continue`s),
not answered 400. -/
theorem unparsable_url_not_400_counterexample :
    serve exExt { sections := [""], index := [] } [] (.dir .nil)
      { hostPresent := true, urlParses := false, path := "/x" } = .dropped ∧
    ServeResult.dropped ≠ ServeResult.badRequest :=
  ⟨rfl, by decide⟩

/-- C6 (amended): a request without a Host header is answered 400; a
request whose URL cannot be parsed is logged and dropped without a
response. -/
theorem bad_request_behaviour (ext : Externals) (snap : Snapshot)
    (root : List String) (tree : FsTree) (u : Bool) (p : String) :
    serve ext snap root tree { hostPresent := false, urlParses := u, path := p } =
      .badRequest ∧
    serve ext snap root tree { hostPresent := true, urlParses := false, path := p } =
      .dropped :=
  ⟨rfl, rfl⟩

/-- C7 counterexample: `git check-ignore` exiting with status 1 (a non-zero
status other than 128 — its normal "nothing is ignored" exit) is accepted
and its stdout parsed, not treated as an error aborting the scan. -/
theorem filter_ignored_exit1_counterexample :
    filter_ignored { code := some 1, stdout := "a\n", stderr := "" } = .ok ["a"] := rfl

/-- C7 (amended): exit status 128 aborts the scan with an error, exiting
without a status (killed by a signal) is an error, but every other exit
status — zero or not — is accepted and stdout parsed as the ignored list;
when git is absent from the search path the filter step is skipped and the
scan is independent of the git oracle. -/
theorem filter_ignored_spec (s e : String) (c : Int) (hc : c ≠ 128)
    (ext : Externals) (rootName : String) (tree : FsTree)
    (g1 g2 : List String → GitOutcome) :
    filter_ignored { code := some 128, stdout := s, stderr := e } =
      .error (gitFailMsg s e) ∧
    filter_ignored { code := none, stdout := s, stderr := e } =
      .error "git didn't exit with a code" ∧
    filter_ignored { code := some c, stdout := s, stderr := e } =
      .ok ((rustLines s).map rustTrim) ∧
    State.load { ext with git := g1 } false rootName tree =
      State.load { ext with git := g2 } false rootName tree := by
  refine ⟨rfl, rfl, ?_, ?_⟩
  · unfold filter_ignored
    dsimp only
    rw [if_neg hc]
  · rw [load_noGit_git_irrel ext g1, load_noGit_git_irrel ext g2]

theorem filter_ignored_spec_witness :
    filter_ignored { code := some 128, stdout := "a\n", stderr := "x" } =
      .error (gitFailMsg "a\n" "x") ∧
    filter_ignored { code := none, stdout := "a\n", stderr := "x" } =
      .error "git didn't exit with a code" ∧
    filter_ignored { code := some 1, stdout := "a\n", stderr := "x" } =
      .ok ((rustLines "a\n").map rustTrim) ∧
    State.load { exExt with git := fun _ => { code := some 128, stdout := "", stderr := "" } }
        false "root" exTree =
      State.load { exExt with git := fun _ => { code := none, stdout := "", stderr := "" } }
        false "root" exTree :=
  filter_ignored_spec "a\n" "x" 1 (by decide) exExt "root" exTree
    (fun _ => { code := some 128, stdout := "", stderr := "" })
    (fun _ => { code := none, stdout := "", stderr := "" })

/-- C8: no path with a hidden segment (a component starting with `.`) ever
appears in a loaded snapshot's sections or index, and no request path with
a hidden segment is ever served content through the generic branch. -/
theorem hidden_paths_never_indexed_or_served (ext : Externals) (foundGit : Bool)
    (rootName : String) (es : FsEntries) (snap : Snapshot)
    (hwf : FsTree.Wf (.dir es))
    (hload : State.load ext foundGit rootName (.dir es) = .ok snap) :
    (∀ s ∈ snap.sections, noHiddenSeg s) ∧
    (∀ e ∈ snap.index, noHiddenSeg e.path) ∧
    (∀ (root : List String) (tree : FsTree) (rq : HttpRequest),
      (serve ext snap root tree rq).isContent = true →
      noHiddenSeg (strTail rq.path)) := by
  rcases load_good hwf hload with ⟨hidx, hsecs⟩
  refine ⟨?_, ?_, ?_⟩
  · intro s hs
    rcases hsecs s hs with rfl | hg
    · exact noHiddenSeg_empty
    · exact noHiddenSeg_of_good hg
  · exact fun e he => noHiddenSeg_of_entryGood (hidx e he)
  · intro root tree rq h
    have hany := serve_content_allowlist h
    rcases List.any_eq_true.mp hany with ⟨e, he, hdec⟩
    have hpath : e.path = strTail rq.path := of_decide_eq_true hdec
    rw [← hpath]
    exact noHiddenSeg_of_entryGood (hidx e he)

theorem hidden_paths_never_indexed_or_served_witness :
    (∀ s ∈ (Snapshot.mk ["", "foo", "foo"] [exEntry]).sections, noHiddenSeg s) ∧
    (∀ e ∈ (Snapshot.mk ["", "foo", "foo"] [exEntry]).index, noHiddenSeg e.path) ∧
    (∀ (root : List String) (tree : FsTree) (rq : HttpRequest),
      (serve exExt (Snapshot.mk ["", "foo", "foo"] [exEntry]) root tree rq).isContent = true →
      noHiddenSeg (strTail rq.path)) :=
  hidden_paths_never_indexed_or_served exExt false "root" exEntries
    { sections := ["", "foo", "foo"], index := [exEntry] } exEntries_wf rfl

/-- C9: a document whose `meta` front-matter block is absent (it then has
no meta-block text at all) or whose `meta` block text the TOML parser
rejects — regardless of what the rest of the document's text would parse
as — still renders (the template is filled with the default sentinel
metadata) and yields no metadata, so the scan appends no index entry for
it. -/
theorem render_no_meta_no_entry (ext : Externals) (secs : List String)
    (contents : String)
    (h : ∀ s ∈ metaTexts .normal (ext.parseMarkdown contents),
      ext.parseMeta s = none) :
    markdown_to_document ext secs contents =
      (ext.renderDocument secs Meta.sentinel
        (ext.pushHtml (mdRun ext (mdInit ext) (ext.parseMarkdown contents)).2), none) ∧
    (∀ (isDir : Bool) (name : String) (rel : List String) (acc : ScanAcc),
      (visit ext isDir name rel contents acc).1.index = acc.index) := by
  have hmeta : (mdRun ext (mdInit ext) (ext.parseMarkdown contents)).1.meta = none :=
    mdRun_meta_none_of_metaTexts_fail ext (ext.parseMarkdown contents) (mdInit ext) h rfl
  constructor
  · unfold markdown_to_document
    dsimp only
    rw [hmeta]
    rfl
  · intro isDir name rel acc
    exact visit_index_unchanged_of_no_meta (fun s => hmeta) isDir name rel acc

/-- Oracles for the C9 witness: `"TRICKY"` tokenizes to a `meta` block
whose text the TOML parser rejects, followed by body text that *would*
parse as metadata (e.g. a post displaying example front matter) — the body
text is outside the `Meta` state and must not rescue the document. -/
def exExtC9 : Externals :=
  { exExt with parseMarkdown := fun c =>
      if c = "TRICKY" then
        [.startFence "meta", .text "JUNK", .endCodeBlock, .text "META", .other "body"]
      else exExt.parseMarkdown c }

theorem render_no_meta_no_entry_witness :
    markdown_to_document exExtC9 ["x"] "TRICKY" =
      (exExtC9.renderDocument ["x"] Meta.sentinel
        (exExtC9.pushHtml
          (mdRun exExtC9 (mdInit exExtC9) (exExtC9.parseMarkdown "TRICKY")).2), none) ∧
    (∀ (isDir : Bool) (name : String) (rel : List String) (acc : ScanAcc),
      (visit exExtC9 isDir name rel "TRICKY" acc).1.index = acc.index) :=
  render_no_meta_no_entry exExtC9 ["x"] "TRICKY"
    (by
      intro s hs
      have hev : metaTexts .normal (exExtC9.parseMarkdown "TRICKY") = ["JUNK"] := rfl
      rw [hev] at hs
      rw [List.mem_singleton.mp hs]
      rfl)

/-- C10: when the content root is a directory, every `IndexEntry.path` of a
loaded snapshot names a file whose final component has extension `md` or
`markdown`; consequently the raw-bytes arm of the generic branch is
unreachable — `serve` never returns raw file bytes. -/
theorem index_paths_markdown_and_no_raw (ext : Externals) (foundGit : Bool)
    (rootName : String) (es : FsEntries) (snap : Snapshot)
    (hwf : FsTree.Wf (.dir es))
    (hload : State.load ext foundGit rootName (.dir es) = .ok snap) :
    (∀ e ∈ snap.index, ∃ pre last, e.path = joinSegs (pre ++ [last]) ∧
      (fileExtension last = some "md" ∨ fileExtension last = some "markdown")) ∧
    (∀ (root : List String) (tree : FsTree) (rq : HttpRequest) (c : String),
      serve ext snap root tree rq ≠ .rawFile c) := by
  rcases load_good hwf hload with ⟨hidx, _⟩
  constructor
  · intro e he
    rcases hidx e he with ⟨pre, last, hp, _, hext, _⟩
    exact ⟨pre, last, hp, hext⟩
  · intro root tree rq c h
    rcases serve_content_or ext snap root tree rq with heq | hfalse
    · rw [heq] at h
      exact serveGeneric_no_raw hidx rq.path c h
    · rw [h] at hfalse
      cases hfalse

theorem index_paths_markdown_and_no_raw_witness :
    (∀ e ∈ (Snapshot.mk ["", "foo", "foo"] [exEntry]).index,
      ∃ pre last, e.path = joinSegs (pre ++ [last]) ∧
        (fileExtension last = some "md" ∨ fileExtension last = some "markdown")) ∧
    (∀ (root : List String) (tree : FsTree) (rq : HttpRequest) (c : String),
      serve exExt (Snapshot.mk ["", "foo", "foo"] [exEntry]) root tree rq ≠ .rawFile c) :=
  index_paths_markdown_and_no_raw exExt false "root" exEntries
    { sections := ["", "foo", "foo"], index := [exEntry] } exEntries_wf rfl
